import Mathlib

/-!
Verification of the process-execution and trace-capture core
(rtemstoolkit/rld-process.cpp and tester/covoar/TraceWriterQEMU.cc).

The C++ code is shallowly embedded: strings are lists of characters or of
byte values (as `Nat`), file descriptors and files are explicit state, and
loops become fuelled or structural recursions whose fuel provably suffices.
-/

/-! ## Command-line tokenizer (rld-process.cpp, parse_command_line) -/

instance exceptDecEq {ε α : Type} [DecidableEq ε] [DecidableEq α] :
    DecidableEq (Except ε α) := fun a b =>
  match a, b with
  | .ok x, .ok y =>
    if h : x = y then .isTrue (by rw [h])
    else .isFalse (fun hh => h (Except.ok.inj hh))
  | .error x, .error y =>
    if h : x = y then .isTrue (by rw [h])
    else .isFalse (fun hh => h (Except.error.inj hh))
  | .ok _, .error _ => .isFalse (fun hh => Except.noConfusion hh)
  | .error _, .ok _ => .isFalse (fun hh => Except.noConfusion hh)

/-- The three scanner states of `parse_command_line`. -/
inductive Pstate where
  | discard_space : Pstate
  | accumulate_quoted : Pstate
  | accumulate_raw : Pstate
deriving DecidableEq

/-- C `isspace` in the C locale, as used on the command characters. -/
def isspaceC (c : Char) : Bool :=
  c = ' ' || c = '\t' || c = '\n' || c = '\x0b' || c = '\x0c' || c = '\r'

/-- `std::string::operator[]`: in-range access, and the NUL character at
index `size()` (the code reads `command[i + 1]` when `i + 1` can be the
size). -/
def charAt (s : List Char) (i : Nat) : Char :=
  s.getD i '\x00'

/-- `std::string::substr (start, cnt)`: `cnt` is a character COUNT clipped
to the end of the string, not an end position. -/
def substrC (s : List Char) (start cnt : Nat) : List Char :=
  (s.drop start).take cnt

/-- The `while (i < command.size ())` loop of `parse_command_line`, with
explicit fuel; `parse_command_line` supplies fuel bounding the loop's
termination measure, so the out-of-fuel branch is never taken. -/
def pclLoop (command : List Char) :
    Nat → Pstate → Nat → Nat → List (List Char) →
    Except String (List (List Char))
  | 0, _, _, _, args => .ok args
  | fuel+1, state, start, i, args =>
    if i < command.length then
      match state with
      | Pstate.discard_space =>
        if charAt command i = '"' then
          pclLoop command fuel Pstate.accumulate_quoted (i+1) (i+1) args
        else if isspaceC (charAt command i) then
          pclLoop command fuel Pstate.discard_space start (i+1) args
        else
          pclLoop command fuel Pstate.accumulate_raw i i args
      | Pstate.accumulate_quoted =>
        if charAt command i = '"' then
          pclLoop command fuel Pstate.discard_space start (i+1)
            (args ++ [substrC command start (i-1)])
        else if charAt command i = '\\' && charAt command (i+1) = '"' then
          pclLoop command fuel Pstate.accumulate_quoted start (i+2) args
        else
          pclLoop command fuel Pstate.accumulate_quoted start (i+1) args
      | Pstate.accumulate_raw =>
        if charAt command i = '"' then
          .error "quote in token"
        else if charAt command i = '\\' && charAt command (i+1) = '"' then
          pclLoop command fuel Pstate.accumulate_raw start (i+2) args
        else if isspaceC (charAt command i) then
          pclLoop command fuel Pstate.discard_space start (i+1)
            (args ++ [substrC command start (i-1)])
        else
          pclLoop command fuel Pstate.accumulate_raw start (i+1) args
    else .ok args

/-- `parse_command_line (command, args)`: the code first does
`args.clear ()`, so the prior contents of `args` are discarded; the scan
starts in `discard_space` with `start = i = 0`. -/
def parse_command_line (command : List Char) (_args : List (List Char)) :
    Except String (List (List Char)) :=
  pclLoop command (2 * command.length + 1) Pstate.discard_space 0 0 []

/-- Claim C1: the tokenizer does NOT emit each token exactly as its source
characters.  `substr`'s second argument is a count, yet the code passes the
position-like value `i - 1`; on the spec's own example the scan yields
`["foo", "bar \"baz", "baz qux\""]` instead of `["foo", "bar", "baz qux"]`.
Only the first token (whose content starts at index 1) comes out right. -/
theorem parse_command_line_substr_bug :
    parse_command_line "\"foo\" bar \"baz qux\"".toList [] =
      .ok ["foo".toList, "bar \"baz".toList, "baz qux\"".toList] ∧
    (["foo".toList, "bar \"baz".toList, "baz qux\"".toList] :
        List (List Char)) ≠
      ["foo".toList, "bar".toList, "baz qux".toList] := by
  constructor
  · decide
  · decide

/-- Claim C2: a scan that ends while still inside a raw token does NOT emit
the final pending token: the `while (i < command.size ())` loop returns with
no trailing push, so parsing `abc` yields `[]`, not `[abc]`. -/
theorem parse_command_line_drops_last_token :
    parse_command_line "abc".toList [] = .ok [] ∧
    (([] : List (List Char)) ≠ ["abc".toList]) := by
  constructor
  · decide
  · decide

/-- Claim C10: `parse_command_line` clears the output argument container
before scanning, so the result depends only on the command string and never
on the container's prior contents. -/
theorem parse_command_line_clears_args
    (command : List Char) (prior : List (List Char)) :
    parse_command_line command prior = parse_command_line command [] := rfl

/-- Witness for `parse_command_line_clears_args` at concrete inputs. -/
theorem parse_command_line_clears_args_witness :
    parse_command_line "x y ".toList ["stale".toList] =
      parse_command_line "x y ".toList [] :=
  parse_command_line_clears_args "x y ".toList ["stale".toList]

/-! ## tempfile::write (rld-process.cpp)

Files are byte lists (`Nat` values).  The underlying `::write (fd, p, l)`
is modelled by a prescribed list of per-call byte counts (the kernel's
successive return values); each count is clipped to the requested length.
The source keeps `p` at the START of the string and only decrements `l`,
so call number k transfers `s.take wₖ` — the first bytes again — which the
embedding reproduces literally. -/

/-- The `while (l)` loop of `tempfile::write`: `l` is the remaining count,
the recursion is over the prescribed underlying write results. -/
def tempfileWriteGo (s : List Nat) : Nat → List Nat → List Nat → List Nat
  | _, [], file => file
  | l, w :: ws, file =>
    if l = 0 then file
    else
      let w' := min w l
      if w' = 0 then file
      else tempfileWriteGo s (l - w') ws (file ++ s.take w')

/-- `tempfile::write (s)` appending to `file`, with the underlying write
results prescribed by `results`. -/
def tempfile_write (s : List Nat) (results : List Nat) (file : List Nat) :
    List Nat :=
  tempfileWriteGo s s.length results file

/-- Claim C3: `tempfile::write` corrupts the stream on a partial write.
The retry passes the original pointer `p` with the shortened length, so for
`s = [97, 98]` and underlying results `[1, 1]` the file receives
`[97, 97]`, duplicating the first byte and dropping the second, although no
underlying write returned zero. -/
theorem tempfile_write_short_write_bug :
    tempfile_write [97, 98] [1, 1] [] = [97, 97] ∧
    ([97, 97] : List Nat) ≠ [97, 98] := by
  constructor
  · decide
  · decide

/-! ## Temporary-file registry (rld-process.cpp)

State: the `tempfiles` container of `(name, keep)` records, the global
`keep_temporary_files` flag, and the disk (the set of existing paths).
`rld::path::unlink` is not under src/. -/

/-- One `tempfile_ref` record of the registry. -/
structure tempfile_ref where
  name : String
  keep : Bool
deriving DecidableEq

/-- The registry plus the observable disk state. -/
structure registry_state where
  tempfiles : List tempfile_ref
  keep_temporary_files : Bool
  disk : List String
deriving DecidableEq

/-- Modelled from the spec: `rld::path::unlink` (rld-path.cpp is not under
src/) "deletes the underlying file", i.e. removes the path from the disk. -/
def path_unlink (disk : List String) (name : String) : List String :=
  disk.filter (fun p => p ≠ name)

/-- `temporary_files::unlink (ref)`: delete the file only when neither the
global flag nor the record's keep flag is set. -/
def temporaries_unlink (keepAll : Bool) (disk : List String)
    (ref : tempfile_ref) : List String :=
  if !keepAll && !ref.keep then path_unlink disk ref.name else disk

/-- The search loop of `temporary_files::erase`: walk the container, and at
the first record whose name matches, unlink (conditionally) and remove the
record, then stop. -/
def temporariesEraseGo (keepAll : Bool) (name : String) :
    List tempfile_ref → List String → List tempfile_ref × List String
  | [], disk => ([], disk)
  | ref :: rest, disk =>
    if ref.name = name then (rest, temporaries_unlink keepAll disk ref)
    else
      let (rest', disk') := temporariesEraseGo keepAll name rest disk
      (ref :: rest', disk')

/-- `temporary_files::erase (name)` on the whole state. -/
def temporaries_erase (st : registry_state) (name : String) :
    registry_state :=
  let (tfs, disk) :=
    temporariesEraseGo st.keep_temporary_files name st.tempfiles st.disk
  { st with tempfiles := tfs, disk := disk }

/-- `tempfile::~tempfile ()`: `close ()` (no registry or disk effect)
followed by `temporaries.erase (_name)`. -/
def tempfile_destroy (st : registry_state) (name : String) :
    registry_state :=
  temporaries_erase st name

theorem temporariesEraseGo_not_found (keepAll : Bool) (name : String) :
    ∀ (tfs : List tempfile_ref) (disk : List String),
      (∀ ref ∈ tfs, ref.name ≠ name) →
      temporariesEraseGo keepAll name tfs disk = (tfs, disk) := by
  intro tfs
  induction tfs with
  | nil => intro disk _; rfl
  | cons ref rest ih =>
    intro disk h
    have hne : ref.name ≠ name := h ref (List.mem_cons_self ref rest)
    simp only [temporariesEraseGo, if_neg hne]
    rw [ih disk (fun r hr => h r (List.mem_cons_of_mem ref hr))]

theorem temporariesEraseGo_found (keepAll : Bool) (name : String)
    (k : Bool) :
    ∀ (pre post : List tempfile_ref) (disk : List String),
      (∀ ref ∈ pre, ref.name ≠ name) →
      temporariesEraseGo keepAll name (pre ++ ⟨name, k⟩ :: post) disk =
        (pre ++ post,
          temporaries_unlink keepAll disk ⟨name, k⟩) := by
  intro pre
  induction pre with
  | nil =>
    intro post disk _
    simp [temporariesEraseGo]
  | cons ref rest ih =>
    intro post disk h
    have hne : ref.name ≠ name := h ref (List.mem_cons_self ref rest)
    simp only [List.cons_append, temporariesEraseGo, if_neg hne,
      List.append_eq]
    rw [ih post disk (fun r hr => h r (List.mem_cons_of_mem ref hr))]

/-- Claim C7: destroying a temp-file handle removes its record (the first
record with its path) from the registry; the backing file is deleted from
the disk exactly when neither the record's keep flag nor the global
keep-all flag is set, and is left alone otherwise; destroying a handle
whose path is not registered changes nothing. -/
theorem tempfile_destroy_spec (st : registry_state) (name : String) :
    ((∀ ref ∈ st.tempfiles, ref.name ≠ name) →
      tempfile_destroy st name = st) ∧
    (∀ (k : Bool) (pre post : List tempfile_ref),
      st.tempfiles = pre ++ ⟨name, k⟩ :: post →
      (∀ ref ∈ pre, ref.name ≠ name) →
      (tempfile_destroy st name).tempfiles = pre ++ post ∧
      (tempfile_destroy st name).disk =
        (if st.keep_temporary_files = false ∧ k = false
         then path_unlink st.disk name else st.disk) ∧
      (st.keep_temporary_files = false ∧ k = false →
        name ∉ (tempfile_destroy st name).disk) ∧
      (st.keep_temporary_files = true ∨ k = true →
        (tempfile_destroy st name).disk = st.disk)) := by
  constructor
  · intro h
    unfold tempfile_destroy temporaries_erase
    rw [temporariesEraseGo_not_found st.keep_temporary_files name
      st.tempfiles st.disk h]
  · intro k pre post hsplit hpre
    unfold tempfile_destroy temporaries_erase
    rw [hsplit, temporariesEraseGo_found st.keep_temporary_files name k
      pre post st.disk hpre]
    refine ⟨rfl, ?_, ?_, ?_⟩
    · simp only [temporaries_unlink]
      rcases hk : st.keep_temporary_files with _ | _ <;>
        rcases hkk : k with _ | _ <;> simp
    · rintro ⟨h1, h2⟩
      simp only [temporaries_unlink, h1, h2, Bool.not_false, Bool.and_self,
        if_pos]
      simp [path_unlink]
    · intro h
      simp only [temporaries_unlink]
      rcases h with h | h <;> simp [h]

/-- Witness for `tempfile_destroy_spec`: a two-record registry with the
keep flags unset; destroying the handle for path `b` removes the record
and deletes `b` from the disk, while destroying an unregistered path `c`
changes nothing. -/
theorem tempfile_destroy_spec_witness :
    (tempfile_destroy
        ⟨[⟨"a", false⟩, ⟨"b", false⟩], false, ["a", "b"]⟩ "b").tempfiles =
      [⟨"a", false⟩] ∧
    "b" ∉ (tempfile_destroy
        ⟨[⟨"a", false⟩, ⟨"b", false⟩], false, ["a", "b"]⟩ "b").disk ∧
    tempfile_destroy
        ⟨[⟨"a", false⟩, ⟨"b", false⟩], false, ["a", "b"]⟩ "c" =
      ⟨[⟨"a", false⟩, ⟨"b", false⟩], false, ["a", "b"]⟩ := by
  have h := (tempfile_destroy_spec
    ⟨[⟨"a", false⟩, ⟨"b", false⟩], false, ["a", "b"]⟩ "b").2 false
    [⟨"a", false⟩] [] (by decide) (by decide)
  refine ⟨h.1.trans (by decide), h.2.2.1 ⟨rfl, rfl⟩, ?_⟩
  exact (tempfile_destroy_spec
    ⟨[⟨"a", false⟩, ⟨"b", false⟩], false, ["a", "b"]⟩ "c").1 (by decide)

/-! ## Trace writer (tester/covoar/TraceWriterQEMU.cc)

The qemu-traces.h constants and the TraceList record type are not under
src/; they are modelled from the spec as symbolic format constants and as
an integer-valued exit reason with three recognized values.  The file
system is modelled as always able to open the output path, and `fwrite`
as always succeeding; the claims under verification do not touch those
failure paths. -/

/-- Modelled from the spec: the magic string constant of qemu-traces.h. -/
def QEMU_TRACE_MAGIC : String := "#QEMU-Traces"

/-- Modelled from the spec: the version constant of qemu-traces.h. -/
def QEMU_TRACE_VERSION : Nat := 1

/-- Modelled from the spec: the "raw" record-kind tag of qemu-traces.h. -/
def QEMU_TRACE_KIND_RAW : Nat := 0

/-- Modelled from the spec: the BLOCK operation tag of qemu-traces.h. -/
def TRACE_OP_BLOCK : Nat := 16

/-- Modelled from the spec: TraceList's branch-taken exit reason
(TraceList.h is not under src/; the three reasons get distinct values). -/
def EXIT_REASON_BRANCH_TAKEN : Nat := 0

/-- Modelled from the spec: TraceList's branch-not-taken exit reason. -/
def EXIT_REASON_BRANCH_NOT_TAKEN : Nat := 1

/-- Modelled from the spec: TraceList's "other" exit reason. -/
def EXIT_REASON_OTHER : Nat := 2

/-- One TraceList range: `{lowAddress, length, exitReason}`. -/
structure TraceRange where
  lowAddress : Nat
  length : Nat
  exitReason : Nat
deriving DecidableEq

/-- The fixed trace-file header written by `writeFile`. -/
structure trace_header where
  magic : String
  version : Nat
  kind : Nat
  sizeof_target_pc : Nat
  big_endian : Bool
  machine0 : Nat
  machine1 : Nat
deriving DecidableEq

/-- One 32-bit trace record: `{pc, size, op}`. -/
structure trace_entry32 where
  pc : Nat
  size : Nat
  op : Nat
deriving DecidableEq

/-- Outcome of `TraceWriterQEMU::writeFile`: `emptyFail` is the `false`
return taken before the output file is opened or created; `fatal` is the
`exit (1)` on an unknown exit reason; `ok` carries the written header and
records. -/
inductive WriteFileResult where
  | emptyFail : WriteFileResult
  | fatal : WriteFileResult
  | ok : trace_header → List trace_entry32 → WriteFileResult
deriving DecidableEq

/-- The `switch (itr->exitReason)` computing `entry.op` from
`TRACE_OP_BLOCK`: `none` is the `default:` case, which prints an error and
calls `exit (1)`. -/
def entryOp (taken notTaken reason : Nat) : Option Nat :=
  if reason = EXIT_REASON_BRANCH_TAKEN then some (TRACE_OP_BLOCK ||| taken)
  else if reason = EXIT_REASON_BRANCH_NOT_TAKEN then
    some (TRACE_OP_BLOCK ||| notTaken)
  else if reason = EXIT_REASON_OTHER then some TRACE_OP_BLOCK
  else none

/-- The record-writing loop of `writeFile`; `none` means the run died in
`exit (1)`. -/
def writeEntriesGo (taken notTaken : Nat) :
    List TraceRange → Option (List trace_entry32)
  | [] => some []
  | r :: rs =>
    match entryOp taken notTaken r.exitReason with
    | none => none
    | some op =>
      (writeEntriesGo taken notTaken rs).map
        (fun es => ⟨r.lowAddress, r.length, op⟩ :: es)

/-- The header literal assigned field by field in `writeFile`. -/
def traceHeaderWritten : trace_header :=
  ⟨QEMU_TRACE_MAGIC, QEMU_TRACE_VERSION, QEMU_TRACE_KIND_RAW, 32, false,
    0, 0⟩

/-- `TraceWriterQEMU::writeFile`: empty-input check before any file is
opened, then the header, then one record per range. -/
def TraceWriterQEMU_writeFile (taken notTaken : Nat)
    (ranges : List TraceRange) : WriteFileResult :=
  if ranges.isEmpty then .emptyFail
  else
    match writeEntriesGo taken notTaken ranges with
    | none => .fatal
    | some entries => .ok traceHeaderWritten entries

/-- Whether the run reached the `OPEN (file, "w")` call. -/
def opensOutput : WriteFileResult → Bool
  | .emptyFail => false
  | _ => true

theorem writeEntriesGo_recognized (taken notTaken : Nat) :
    ∀ ranges : List TraceRange,
      (∀ r ∈ ranges,
        r.exitReason = EXIT_REASON_BRANCH_TAKEN ∨
        r.exitReason = EXIT_REASON_BRANCH_NOT_TAKEN ∨
        r.exitReason = EXIT_REASON_OTHER) →
      writeEntriesGo taken notTaken ranges =
        some (ranges.map (fun r =>
          ⟨r.lowAddress, r.length,
            if r.exitReason = EXIT_REASON_BRANCH_TAKEN then
              TRACE_OP_BLOCK ||| taken
            else if r.exitReason = EXIT_REASON_BRANCH_NOT_TAKEN then
              TRACE_OP_BLOCK ||| notTaken
            else TRACE_OP_BLOCK⟩)) := by
  intro ranges
  induction ranges with
  | nil => intro _; rfl
  | cons r rs ih =>
    intro h
    have hr := h r (List.mem_cons_self r rs)
    have hrest := ih (fun x hx => h x (List.mem_cons_of_mem r hx))
    simp only [writeEntriesGo, entryOp, List.map_cons]
    rcases hr with hr | hr | hr
    · rw [if_pos hr, hrest]
      simp [hr]
    · have hne : r.exitReason ≠ EXIT_REASON_BRANCH_TAKEN := by
        rw [hr]; decide
      rw [if_neg hne, if_pos hr, hrest]
      simp [hr, EXIT_REASON_BRANCH_TAKEN, EXIT_REASON_BRANCH_NOT_TAKEN]
    · have hne : r.exitReason ≠ EXIT_REASON_BRANCH_TAKEN := by
        rw [hr]; decide
      have hne2 : r.exitReason ≠ EXIT_REASON_BRANCH_NOT_TAKEN := by
        rw [hr]; decide
      rw [if_neg hne, if_neg hne2, if_pos hr, hrest]
      simp [hr, EXIT_REASON_BRANCH_TAKEN, EXIT_REASON_BRANCH_NOT_TAKEN,
        EXIT_REASON_OTHER]

theorem writeEntriesGo_unrecognized (taken notTaken : Nat) :
    ∀ ranges : List TraceRange,
      (∃ r ∈ ranges,
        ¬(r.exitReason = EXIT_REASON_BRANCH_TAKEN ∨
          r.exitReason = EXIT_REASON_BRANCH_NOT_TAKEN ∨
          r.exitReason = EXIT_REASON_OTHER)) →
      writeEntriesGo taken notTaken ranges = none := by
  intro ranges
  induction ranges with
  | nil => rintro ⟨r, hr, _⟩; cases hr
  | cons r rs ih =>
    rintro ⟨x, hx, hbad⟩
    rcases List.mem_cons.mp hx with hx | hx
    · subst hx
      push_neg at hbad
      simp only [writeEntriesGo, entryOp, if_neg hbad.1, if_neg hbad.2.1,
        if_neg hbad.2.2]
    · have := ih ⟨x, hx, hbad⟩
      simp only [writeEntriesGo, this]
      rcases hop : entryOp taken notTaken r.exitReason with _ | op
      · rfl
      · simp

/-- Claim C5: every record the trace writer emits carries the operation
byte `TRACE_OP_BLOCK` OR'd with the target's taken bit when the exit
reason is branch-taken, with the not-taken bit when it is
branch-not-taken, and with nothing when it is "other"; a record with any
other exit-reason value makes the run terminate fatally. -/
theorem TraceWriterQEMU_writeFile_op (taken notTaken : Nat)
    (ranges : List TraceRange) (hne : ranges ≠ []) :
    ((∀ r ∈ ranges,
        r.exitReason = EXIT_REASON_BRANCH_TAKEN ∨
        r.exitReason = EXIT_REASON_BRANCH_NOT_TAKEN ∨
        r.exitReason = EXIT_REASON_OTHER) →
      TraceWriterQEMU_writeFile taken notTaken ranges =
        .ok traceHeaderWritten (ranges.map (fun r =>
          ⟨r.lowAddress, r.length,
            if r.exitReason = EXIT_REASON_BRANCH_TAKEN then
              TRACE_OP_BLOCK ||| taken
            else if r.exitReason = EXIT_REASON_BRANCH_NOT_TAKEN then
              TRACE_OP_BLOCK ||| notTaken
            else TRACE_OP_BLOCK⟩))) ∧
    ((∃ r ∈ ranges,
        ¬(r.exitReason = EXIT_REASON_BRANCH_TAKEN ∨
          r.exitReason = EXIT_REASON_BRANCH_NOT_TAKEN ∨
          r.exitReason = EXIT_REASON_OTHER)) →
      TraceWriterQEMU_writeFile taken notTaken ranges = .fatal) := by
  have hempty : ranges.isEmpty = false := by
    rcases ranges with _ | ⟨r, rs⟩
    · exact absurd rfl hne
    · rfl
  constructor
  · intro h
    unfold TraceWriterQEMU_writeFile
    rw [hempty, writeEntriesGo_recognized taken notTaken ranges h]
    rfl
  · intro h
    unfold TraceWriterQEMU_writeFile
    rw [hempty, writeEntriesGo_unrecognized taken notTaken ranges h]
    rfl

/-- Witness for `TraceWriterQEMU_writeFile_op`: the spec's example record
`{address = 0x1000, length = 4, exit reason = taken}` with taken bit
`0x01` is emitted with operation byte `TRACE_OP_BLOCK ||| 0x01 = 0x11`. -/
theorem TraceWriterQEMU_writeFile_op_witness :
    TraceWriterQEMU_writeFile 1 2 [⟨0x1000, 4, EXIT_REASON_BRANCH_TAKEN⟩] =
      .ok traceHeaderWritten [⟨0x1000, 4, 0x11⟩] := by
  have h := (TraceWriterQEMU_writeFile_op 1 2
    [⟨0x1000, 4, EXIT_REASON_BRANCH_TAKEN⟩] (by decide)).1 (by decide)
  exact h.trans (by decide)

/-- Claim C6: an empty record sequence makes `writeFile` fail before the
output file is opened or created, and every non-empty sequence reaches the
open of the output path. -/
theorem TraceWriterQEMU_writeFile_empty (taken notTaken : Nat) :
    TraceWriterQEMU_writeFile taken notTaken [] = .emptyFail ∧
    opensOutput (TraceWriterQEMU_writeFile taken notTaken []) = false ∧
    ∀ ranges : List TraceRange, ranges ≠ [] →
      opensOutput (TraceWriterQEMU_writeFile taken notTaken ranges) =
        true := by
  refine ⟨rfl, rfl, ?_⟩
  intro ranges hne
  have hempty : ranges.isEmpty = false := by
    rcases ranges with _ | ⟨r, rs⟩
    · exact absurd rfl hne
    · rfl
  unfold TraceWriterQEMU_writeFile
  rw [hempty]
  rcases hw : writeEntriesGo taken notTaken ranges with _ | es
  · rfl
  · rfl

/-- Witness for `TraceWriterQEMU_writeFile_empty` at concrete inputs. -/
theorem TraceWriterQEMU_writeFile_empty_witness :
    TraceWriterQEMU_writeFile 1 2 [] = .emptyFail ∧
    opensOutput (TraceWriterQEMU_writeFile 1 2
      [⟨0x1000, 4, EXIT_REASON_OTHER⟩]) = true := by
  refine ⟨(TraceWriterQEMU_writeFile_empty 1 2).1, ?_⟩
  exact (TraceWriterQEMU_writeFile_empty 1 2).2.2
    [⟨0x1000, 4, EXIT_REASON_OTHER⟩] (by decide)

/-- Claim C8: on every successful write the emitted header carries the
format's magic and version constants, the raw record-kind tag, a target
pointer width of 32 bits, a false big-endian flag, and two zero machine-id
bytes. -/
theorem TraceWriterQEMU_writeFile_header (taken notTaken : Nat)
    (ranges : List TraceRange) (hdr : trace_header)
    (entries : List trace_entry32)
    (hok : TraceWriterQEMU_writeFile taken notTaken ranges =
      .ok hdr entries) :
    hdr.magic = QEMU_TRACE_MAGIC ∧
    hdr.version = QEMU_TRACE_VERSION ∧
    hdr.kind = QEMU_TRACE_KIND_RAW ∧
    hdr.sizeof_target_pc = 32 ∧
    hdr.big_endian = false ∧
    hdr.machine0 = 0 ∧ hdr.machine1 = 0 := by
  unfold TraceWriterQEMU_writeFile at hok
  rcases hE : ranges.isEmpty with _ | _
  · rw [hE] at hok
    simp only [Bool.false_eq_true, if_false] at hok
    rcases hw : writeEntriesGo taken notTaken ranges with _ | es <;>
      rw [hw] at hok
    · cases hok
    · rcases hok with ⟨⟩
      exact ⟨rfl, rfl, rfl, rfl, rfl, rfl, rfl⟩
  · rw [hE] at hok
    simp only [if_true] at hok
    cases hok

/-- Witness for `TraceWriterQEMU_writeFile_header` at a concrete
successful write. -/
theorem TraceWriterQEMU_writeFile_header_witness :
    traceHeaderWritten.magic = QEMU_TRACE_MAGIC ∧
    traceHeaderWritten.version = QEMU_TRACE_VERSION ∧
    traceHeaderWritten.kind = QEMU_TRACE_KIND_RAW ∧
    traceHeaderWritten.sizeof_target_pc = 32 ∧
    traceHeaderWritten.big_endian = false ∧
    traceHeaderWritten.machine0 = 0 ∧ traceHeaderWritten.machine1 = 0 :=
  TraceWriterQEMU_writeFile_header 1 2 [⟨0x1000, 4, EXIT_REASON_OTHER⟩]
    traceHeaderWritten [⟨0x1000, 4, TRACE_OP_BLOCK⟩] (by decide)

/-! ## tempfile buffered reading (rld-process.cpp)

A handle is the open flag (`fd != -1`), the bytes still ahead of the file
position (`rem`), and the live bytes of the internal buffer (`buf`, whose
length is the `level` counter).  The buffer capacity `sizeof (buf)` comes
from rld-process.h, which is not under src/; it is kept as a parameter
`cap` (the source fixes it to one compile-time constant, at least 2).
`::read` on a regular file deterministically returns
`min (count, bytes-left)`.  The byte after the live region is always NUL
(the code memsets before reading and the memmove carries one extra byte),
so `strchr (buf, '\n')` scans the live bytes, stopping at any NUL byte. -/

/-- A `tempfile` handle for reading. -/
structure tempfile_handle where
  isOpen : Bool
  rem : List Nat
  buf : List Nat
deriving DecidableEq

/-- `strchr (buf, '\n')` over the live bytes: the first index holding 10,
scanning no further than the first 0 byte (the C string terminator). -/
def rlStrchr : List Nat → Option Nat
  | [] => none
  | b :: bs =>
    if b = 0 then none
    else if b = 10 then some 0
    else (rlStrchr bs).map (fun i => i + 1)

/-- The `while (reading)` loop of `tempfile::read_line`, with explicit
fuel; `tempfile_read_line` supplies fuel bounding the loop's termination
measure.  Returns `(line, buf, rem)`. -/
def rlLoop (cap : Nat) :
    Nat → List Nat → List Nat → List Nat →
    List Nat × List Nat × List Nat
  | 0, rem, buf, line => (line, buf, rem)
  | fuel+1, rem, buf, line =>
    if buf.length < cap - 1 then
      let r := min (cap - 1 - buf.length) rem.length
      let buf1 := buf ++ rem.take r
      let rem1 := rem.drop r
      if r = 0 then
        -- read returned 0: reading = false; process once more and exit
        if buf1.isEmpty then (line, buf1, rem1)
        else
          match rlStrchr buf1 with
          | some idx => (line ++ buf1.take (idx+1), buf1.drop (idx+1), rem1)
          | none => (line ++ buf1, [], rem1)
      else
        -- still reading; the buffer is non-empty (r bytes arrived)
        match rlStrchr buf1 with
        | some idx => (line ++ buf1.take (idx+1), buf1.drop (idx+1), rem1)
        | none => rlLoop cap fuel rem1 [] (line ++ buf1)
    else
      -- buffer already full: no read; reading stays true
      if buf.isEmpty then rlLoop cap fuel rem buf line
      else
        match rlStrchr buf with
        | some idx => (line ++ buf.take (idx+1), buf.drop (idx+1), rem)
        | none => rlLoop cap fuel rem [] (line ++ buf)

/-- `tempfile::read_line (line)`: clears `line`, and only works on an open
handle. -/
def tempfile_read_line (cap : Nat) (h : tempfile_handle) :
    List Nat × tempfile_handle :=
  if h.isOpen then
    let out := rlLoop cap (2 * h.rem.length + h.buf.length + 1)
      h.rem h.buf []
    (out.1, { h with buf := out.2.1, rem := out.2.2 })
  else ([], h)

/-- The `while (true)` chunk loop of `tempfile::read`, with fuel. -/
def raGo (cap : Nat) : Nat → List Nat → List Nat → List Nat × List Nat
  | 0, rem, acc => (acc, rem)
  | fuel+1, rem, acc =>
    let r := min cap rem.length
    if r = 0 then (acc, rem)
    else raGo cap fuel (rem.drop r) (acc ++ rem.take r)

/-- `tempfile::read (all)` (read_all): clears `all`, flushes the buffered
partial line first, then drains the handle; only works on an open
handle. -/
def tempfile_read (cap : Nat) (h : tempfile_handle) :
    List Nat × tempfile_handle :=
  if h.isOpen then
    let out := raGo cap (h.rem.length + 1) h.rem h.buf
    (out.1, { h with buf := [], rem := out.2 })
  else ([], h)

/-- Claim C9: `read` (read_all) and `read_line` on a handle that is not
open return empty content, leave the handle unchanged, and raise no error:
the `fd != -1` guard fails and the cleared output string is returned. -/
theorem tempfile_read_closed (cap : Nat) (h : tempfile_handle)
    (hclosed : h.isOpen = false) :
    tempfile_read cap h = ([], h) ∧
    tempfile_read_line cap h = ([], h) := by
  constructor
  · unfold tempfile_read
    rw [hclosed]
    rfl
  · unfold tempfile_read_line
    rw [hclosed]
    rfl

/-- Witness for `tempfile_read_closed` on a concrete closed handle. -/
theorem tempfile_read_closed_witness :
    tempfile_read 4096 ⟨false, [97, 10], [98]⟩ =
      ([], ⟨false, [97, 10], [98]⟩) ∧
    tempfile_read_line 4096 ⟨false, [97, 10], [98]⟩ =
      ([], ⟨false, [97, 10], [98]⟩) :=
  tempfile_read_closed 4096 ⟨false, [97, 10], [98]⟩ rfl

/-! ## Line round-trip (write_line / write_lines against read_line) -/

/-- Modelled from the spec: RLD_LINE_SEPARATOR (rld.h is not under src/)
is the platform line separator, the line feed. -/
def RLD_LINE_SEPARATOR : List Nat := [10]

/-- `tempfile::write (s)` when every underlying write completes in full,
the deterministic behaviour on a regular file. -/
def tempfile_write_full (file s : List Nat) : List Nat :=
  tempfile_write s [s.length] file

/-- `tempfile::write_line (s)`: `write (s); write (RLD_LINE_SEPARATOR)`. -/
def tempfile_write_line (file s : List Nat) : List Nat :=
  tempfile_write_full (tempfile_write_full file s) RLD_LINE_SEPARATOR

/-- `tempfile::write_lines (ss)`: `write_line` on each string in order. -/
def tempfile_write_lines (file : List Nat) (ss : List (List Nat)) :
    List Nat :=
  ss.foldl tempfile_write_line file

/-- Repeated `read_line` calls: the list of the next `n` lines returned,
threading the handle state. -/
def readLinesIter (cap : Nat) : Nat → tempfile_handle → List (List Nat)
  | 0, _ => []
  | n+1, h =>
    let out := tempfile_read_line cap h
    out.1 :: readLinesIter cap n out.2

/-- The byte stream that a sequence of lines occupies on disk: each line
followed by the line-feed separator. -/
def linesBytes : List (List Nat) → List Nat
  | [] => []
  | l :: ls => l ++ 10 :: linesBytes ls

theorem tempfile_write_full_eq (file s : List Nat) :
    tempfile_write_full file s = file ++ s := by
  unfold tempfile_write_full tempfile_write
  by_cases h : s.length = 0
  · have h0 : s = [] := List.length_eq_zero.mp h
    subst h0
    simp [tempfileWriteGo]
  · simp only [tempfileWriteGo, if_neg h, min_self, Nat.sub_self,
      List.take_length]

theorem tempfile_write_line_eq (file s : List Nat) :
    tempfile_write_line file s = file ++ s ++ [10] := by
  unfold tempfile_write_line RLD_LINE_SEPARATOR
  rw [tempfile_write_full_eq, tempfile_write_full_eq]

theorem tempfile_write_lines_eq :
    ∀ (ss : List (List Nat)) (file : List Nat),
      tempfile_write_lines file ss = file ++ linesBytes ss := by
  intro ss
  induction ss with
  | nil => intro file; simp [tempfile_write_lines, linesBytes]
  | cons s rest ih =>
    intro file
    unfold tempfile_write_lines at ih ⊢
    simp only [List.foldl_cons, linesBytes]
    rw [ih, tempfile_write_line_eq]
    simp

theorem rlStrchr_none (l : List Nat) (h : ∀ b ∈ l, b ≠ 10 ∧ b ≠ 0) :
    rlStrchr l = none := by
  induction l with
  | nil => rfl
  | cons b bs ih =>
    have hb := h b (List.mem_cons_self b bs)
    simp only [rlStrchr, if_neg hb.2, if_neg hb.1]
    rw [ih (fun x hx => h x (List.mem_cons_of_mem b hx))]
    rfl

theorem rlStrchr_line (line t : List Nat)
    (h : ∀ b ∈ line, b ≠ 10 ∧ b ≠ 0) :
    rlStrchr (line ++ 10 :: t) = some line.length := by
  induction line with
  | nil => rfl
  | cons b bs ih =>
    have hb := h b (List.mem_cons_self b bs)
    simp only [List.cons_append, rlStrchr, if_neg hb.2, if_neg hb.1,
      List.append_eq]
    rw [ih (fun x hx => h x (List.mem_cons_of_mem b hx))]
    rfl

/-- Dichotomy used by the `read_line` loop invariant: the live buffer is
either a prefix of the pending line (no line feed visible yet) or already
contains the whole line plus its separator. -/
theorem rlSplit (line rest buf1 rem1 : List Nat)
    (hsum : buf1 ++ rem1 = line ++ 10 :: rest)
    (hclean : ∀ b ∈ line, b ≠ 10 ∧ b ≠ 0) :
    (buf1.length ≤ line.length ∧ rlStrchr buf1 = none ∧
      buf1 = line.take buf1.length ∧
      rem1 = line.drop buf1.length ++ 10 :: rest) ∨
    (line.length < buf1.length ∧ rlStrchr buf1 = some line.length ∧
      buf1.take (line.length + 1) = line ++ [10] ∧
      buf1.drop (line.length + 1) ++ rem1 = rest ∧
      (buf1.drop (line.length + 1)).length =
        buf1.length - line.length - 1) := by
  by_cases hk : buf1.length ≤ line.length
  · left
    have hbuf : buf1 = line.take buf1.length := by
      have h1 := List.take_left buf1 rem1
      rw [hsum, List.take_append_of_le_length hk] at h1
      exact h1.symm
    have hrem : rem1 = line.drop buf1.length ++ 10 :: rest := by
      have h1 := List.drop_left buf1 rem1
      rw [hsum, List.drop_append_of_le_length hk] at h1
      exact h1.symm
    refine ⟨hk, ?_, hbuf, hrem⟩
    apply rlStrchr_none
    intro b hb
    rw [hbuf] at hb
    exact hclean b (List.mem_of_mem_take hb)
  · right
    push_neg at hk
    have hbuf : buf1 =
        line ++ 10 :: rest.take (buf1.length - line.length - 1) := by
      have h1 := List.take_left buf1 rem1
      rw [hsum, List.take_append_eq_append_take,
        List.take_of_length_le (le_of_lt hk)] at h1
      have hpos : buf1.length - line.length =
          (buf1.length - line.length - 1) + 1 := by omega
      rw [hpos, List.take_succ_cons] at h1
      exact h1.symm
    have h2 : buf1.drop (line.length + 1) =
        rest.take (buf1.length - line.length - 1) := by
      have h1 : line.length + 1 - line.length = 1 := by omega
      conv_lhs => rw [hbuf]
      rw [List.drop_append_eq_append_drop,
        List.drop_eq_nil_of_le (Nat.le_succ _), List.nil_append, h1]
      rfl
    refine ⟨hk, ?_, ?_, ?_, ?_⟩
    · rw [hbuf]
      exact rlStrchr_line line _ hclean
    · rw [hbuf, List.take_append_eq_append_take,
        List.take_of_length_le (Nat.le_succ _)]
      have h1 : line.length + 1 - line.length = 1 := by omega
      rw [h1]
      rfl
    · have h3 := hsum
      rw [hbuf, List.append_assoc, List.cons_append] at h3
      have h4 := List.append_cancel_left h3
      injection h4 with _ h5
      rw [h2]
      exact h5
    · rw [h2, List.length_take]
      have hlen := congrArg List.length hsum
      simp only [List.length_append, List.length_cons] at hlen
      omega

/-- Loop invariant of `tempfile::read_line`: started anywhere in the
stream whose pending line (line-feed-free, NUL-free bytes followed by a
line feed) is `line`, the loop appends exactly `line ++ [10]` to the
accumulator, and the leftover buffer and file position hold exactly the
rest of the stream. -/
theorem rlLoop_line (cap : Nat) (hcap : 2 ≤ cap) :
    ∀ (fuel : Nat) (line rest buf rem acc : List Nat),
      buf ++ rem = line ++ 10 :: rest →
      buf.length ≤ cap - 1 →
      (∀ b ∈ line, b ≠ 10 ∧ b ≠ 0) →
      2 * rem.length + buf.length + 1 ≤ fuel →
      ∃ buf2 rem2,
        rlLoop cap fuel rem buf acc = (acc ++ (line ++ [10]), buf2, rem2) ∧
        buf2 ++ rem2 = rest ∧ buf2.length ≤ cap - 1 := by
  intro fuel
  induction fuel with
  | zero =>
    intro line rest buf rem acc _ _ _ hfuel
    omega
  | succ fuel ih =>
    intro line rest buf rem acc hsum hlen hclean hfuel
    simp only [rlLoop]
    by_cases hlt : buf.length < cap - 1
    · rw [if_pos hlt]
      set r := min (cap - 1 - buf.length) rem.length with hrdef
      by_cases hr0 : r = 0
      · rw [if_pos hr0, hr0]
        simp only [List.take_zero, List.drop_zero, List.append_nil]
        have hrem0 : rem = [] := by
          apply List.length_eq_zero.mp
          omega
        have hbufeq : buf = line ++ 10 :: rest := by
          rw [hrem0, List.append_nil] at hsum
          exact hsum
        have hbufne : buf ≠ [] := by
          rw [hbufeq]
          simp
        have hbe : buf.isEmpty = false := List.isEmpty_eq_false.mpr hbufne
        rw [if_neg (show ¬(buf.isEmpty = true) by simp [hbe])]
        rcases rlSplit line rest buf rem hsum hclean with
          ⟨_, _, _, hrem1⟩ | ⟨hgt, hsome, htake, happ, hlen2⟩
        · rw [hrem0] at hrem1
          exact absurd hrem1.symm (by simp)
        · rw [hsome]
          refine ⟨buf.drop (line.length + 1), rem, ?_, happ, ?_⟩
          · exact congrArg
              (fun x => (acc ++ x, buf.drop (line.length + 1), rem)) htake
          · rw [hlen2]
            omega
      · rw [if_neg hr0]
        have hrle : r ≤ rem.length := by omega
        have hsum1 : (buf ++ rem.take r) ++ rem.drop r =
            line ++ 10 :: rest := by
          rw [List.append_assoc, List.take_append_drop]
          exact hsum
        have hlen1 : (buf ++ rem.take r).length ≤ cap - 1 := by
          simp only [List.length_append, List.length_take]
          omega
        rcases rlSplit line rest (buf ++ rem.take r) (rem.drop r) hsum1
            hclean with
          ⟨hle, hnone, hpre, hrem1⟩ | ⟨hgt, hsome, htake, happ, hlen2⟩
        · rw [hnone]
          have hclean2 : ∀ b ∈ line.drop (buf ++ rem.take r).length,
              b ≠ 10 ∧ b ≠ 0 :=
            fun b hb => hclean b (List.mem_of_mem_drop hb)
          have hsum2 : ([] : List Nat) ++ rem.drop r =
              line.drop (buf ++ rem.take r).length ++ 10 :: rest := by
            rw [List.nil_append]
            exact hrem1
          have hfuel2 : 2 * (rem.drop r).length +
              ([] : List Nat).length + 1 ≤ fuel := by
            simp only [List.length_drop, List.length_nil]
            omega
          obtain ⟨buf2, rem2, hrec, hs2, hl2⟩ :=
            ih (line.drop (buf ++ rem.take r).length) rest [] (rem.drop r)
              (acc ++ (buf ++ rem.take r)) hsum2 (by simp) hclean2 hfuel2
          refine ⟨buf2, rem2, ?_, hs2, hl2⟩
          have hjoin : (buf ++ rem.take r) ++
              line.drop (buf ++ rem.take r).length = line := by
            have h10 := List.take_append_drop (buf ++ rem.take r).length line
            rw [← hpre] at h10
            exact h10
          have hfirst : (acc ++ (buf ++ rem.take r)) ++
              (line.drop (buf ++ rem.take r).length ++ [10]) =
              acc ++ (line ++ [10]) := by
            rw [List.append_assoc acc, ← List.append_assoc (buf ++ rem.take r),
              hjoin]
          exact hrec.trans (by rw [hfirst])
        · rw [hsome]
          refine ⟨(buf ++ rem.take r).drop (line.length + 1), rem.drop r,
            ?_, happ, ?_⟩
          · exact congrArg
              (fun x => (acc ++ x,
                (buf ++ rem.take r).drop (line.length + 1), rem.drop r))
              htake
          · rw [hlen2]
            omega
    · rw [if_neg hlt]
      have hbufne : buf ≠ [] := by
        intro h0
        rw [h0] at hlt
        simp only [List.length_nil] at hlt
        omega
      have hbe : buf.isEmpty = false := List.isEmpty_eq_false.mpr hbufne
      rw [if_neg (show ¬(buf.isEmpty = true) by simp [hbe])]
      have hbl : 1 ≤ buf.length := List.length_pos.mpr hbufne
      rcases rlSplit line rest buf rem hsum hclean with
        ⟨hle, hnone, hpre, hrem1⟩ | ⟨hgt, hsome, htake, happ, hlen2⟩
      · rw [hnone]
        have hclean2 : ∀ b ∈ line.drop buf.length, b ≠ 10 ∧ b ≠ 0 :=
          fun b hb => hclean b (List.mem_of_mem_drop hb)
        have hsum2 : ([] : List Nat) ++ rem =
            line.drop buf.length ++ 10 :: rest := by
          rw [List.nil_append]
          exact hrem1
        have hfuel2 : 2 * rem.length + ([] : List Nat).length + 1 ≤ fuel := by
          simp only [List.length_nil]
          omega
        obtain ⟨buf2, rem2, hrec, hs2, hl2⟩ :=
          ih (line.drop buf.length) rest [] rem (acc ++ buf) hsum2
            (by simp) hclean2 hfuel2
        refine ⟨buf2, rem2, ?_, hs2, hl2⟩
        have hjoin : buf ++ line.drop buf.length = line := by
          have h10 := List.take_append_drop buf.length line
          rw [← hpre] at h10
          exact h10
        have hfirst : (acc ++ buf) ++ (line.drop buf.length ++ [10]) =
            acc ++ (line ++ [10]) := by
          rw [List.append_assoc acc, ← List.append_assoc buf, hjoin]
        exact hrec.trans (by rw [hfirst])
      · rw [hsome]
        refine ⟨buf.drop (line.length + 1), rem, ?_, happ, ?_⟩
        · exact congrArg
            (fun x => (acc ++ x, buf.drop (line.length + 1), rem)) htake
        · rw [hlen2]
          omega

/-- Iterating `read_line` over a stream laid out as lines with separators
returns exactly those lines, each with its terminator. -/
theorem readLinesIter_lines (cap : Nat) (hcap : 2 ≤ cap) :
    ∀ (lines : List (List Nat)) (buf rem : List Nat),
      buf ++ rem = linesBytes lines →
      buf.length ≤ cap - 1 →
      (∀ l ∈ lines, ∀ b ∈ l, b ≠ 10 ∧ b ≠ 0) →
      readLinesIter cap lines.length ⟨true, rem, buf⟩ =
        lines.map (fun l => l ++ [10]) := by
  intro lines
  induction lines with
  | nil => intro buf rem _ _ _; rfl
  | cons l ls ih =>
    intro buf rem hsum hlen hclean
    have hclean1 : ∀ b ∈ l, b ≠ 10 ∧ b ≠ 0 :=
      hclean l (List.mem_cons_self l ls)
    have hsum1 : buf ++ rem = l ++ 10 :: linesBytes ls := by
      rw [hsum]; rfl
    obtain ⟨buf2, rem2, hrl, hs2, hl2⟩ :=
      rlLoop_line cap hcap (2 * rem.length + buf.length + 1) l
        (linesBytes ls) buf rem [] hsum1 hlen hclean1 le_rfl
    simp only [List.length_cons, readLinesIter, tempfile_read_line]
    rw [hrl]
    simp only [if_true, List.nil_append, List.map_cons]
    exact congrArg (fun x => (l ++ [10]) :: x)
      (ih buf2 rem2 hs2 hl2
        (fun x hx => hclean x (List.mem_cons_of_mem l hx)))

/-- Claim C4 (amended: the lines must also be free of NUL bytes): writing
any finite sequence of line-feed-free, NUL-free byte strings with
`write_line` / `write_lines` and reading the file back with repeated
`read_line` calls returns exactly the original sequence — same count and
content, each line carrying its line-feed terminator — for every buffer
capacity of at least 2, including lines longer than the buffer. -/
theorem write_lines_read_lines_round_trip (cap : Nat) (hcap : 2 ≤ cap)
    (lines : List (List Nat))
    (hclean : ∀ l ∈ lines, ∀ b ∈ l, b ≠ 10 ∧ b ≠ 0) :
    readLinesIter cap lines.length
        ⟨true, tempfile_write_lines [] lines, []⟩ =
      lines.map (fun l => l ++ [10]) := by
  apply readLinesIter_lines cap hcap lines [] (tempfile_write_lines [] lines)
  · rw [tempfile_write_lines_eq, List.nil_append]
    rfl
  · simp
  · exact hclean

/-- Witness for `write_lines_read_lines_round_trip`: capacity 4 (buffer
holds 3 live bytes), one five-byte line — longer than the buffer — and one
one-byte line round-trip exactly. -/
theorem write_lines_read_lines_round_trip_witness :
    readLinesIter 4 2
        ⟨true, tempfile_write_lines [] [[97, 98, 99, 100, 101], [102]],
          []⟩ =
      [[97, 98, 99, 100, 101, 10], [102, 10]] := by
  have h := write_lines_read_lines_round_trip 4 (by decide)
    [[97, 98, 99, 100, 101], [102]] (by decide)
  exact h.trans (by decide)

/-- Claim C4 as stated fails for strings containing a NUL byte:
`read_line` locates the line feed with `strchr` on the buffer, which stops
at the first NUL, so after writing the newline-free lines `[0]` and `[97]`
the first `read_line` returns both lines in one string (the line feed
after the NUL is missed, everything is flushed at end of file), not the
first line.  Shown at buffer capacity 4096; any capacity letting the NUL
and the line feed sit in the buffer together behaves this way. -/
theorem read_line_nul_byte_counterexample :
    readLinesIter 4096 2
        ⟨true, tempfile_write_lines [] [[0], [97]], []⟩ =
      [[0, 10, 97, 10], []] ∧
    ([[0, 10, 97, 10], []] : List (List Nat)) ≠ [[0, 10], [97, 10]] := by
  constructor
  · decide
  · decide
